import Mathlib

/-!
Verification of the codemirror/search matching core.

The document is embedded as a `List Char` addressed by zero-based offsets.
The repository's own code (`word.ts`: the word-boundary predicates,
`StringQuery` / `RegExpQuery`, the search commands, and the
selection-match highlighter) is translated directly.  The `SearchCursor`
and `RegExpCursor` classes live in `cursor.ts` / `regexp.ts`, which are
not part of the sources given here; their semantics are modelled from the
specification (sections 4.1 and 4.2): a cursor over a bounded range
`[from, to]` lazily produces the matches lying entirely inside the range,
where `next` resumes at the previous match's end and `nextOverlapping`
resumes one position past the previous match's start.
-/

/-- Word classifier categories, from the host editor's `CharCategory`.
The classifier itself is an external input (`check : List Char → CharCategory`),
applied to one-character document slices exactly as in the source. -/
inductive CharCategory where
  | Word
  | Space
  | Other
deriving DecidableEq

/-- `state.sliceDoc(from, to)`: the document substring `[a, b)`. -/
def sliceDoc (doc : List Char) (a b : Nat) : List Char :=
  (doc.take b).drop a

/-- From `word.ts` (`insideWordBoundaries`): whether the characters directly
outside the given positions are non-word characters. -/
def insideWordBoundaries (check : List Char → CharCategory) (doc : List Char)
    (f t : Nat) : Bool :=
  (decide (f = 0) || decide (check (sliceDoc doc (f - 1) f) ≠ CharCategory.Word)) &&
  (decide (t = doc.length) || decide (check (sliceDoc doc t (t + 1)) ≠ CharCategory.Word))

/-- From `word.ts` (`insideWord`): whether the characters directly at the given
positions are word characters. -/
def insideWord (check : List Char → CharCategory) (doc : List Char)
    (f t : Nat) : Bool :=
  decide (check (sliceDoc doc f (f + 1)) = CharCategory.Word) &&
  decide (check (sliceDoc doc (t - 1) t) = CharCategory.Word)

/-- From `word.ts` (`isWholeWord`): whether the characters at the ends of the
given range are word characters inside non-word characters. -/
def isWholeWord (check : List Char → CharCategory) (doc : List Char)
    (f t : Nat) : Bool :=
  insideWordBoundaries check doc f t && insideWord check doc f t

/-- Modelled from the spec: literal matching at one position (section 4.1).
The needle occurs at offset `p` of the document when the needle fits inside
the document there and compares equal character by character after applying
the case-folding function `norm` to both sides. -/
def occursAt (norm : Char → Char) (doc needle : List Char) (p : Nat) : Bool :=
  decide (p + needle.length ≤ doc.length) &&
  decide (((doc.drop p).take needle.length).map norm = needle.map norm)

/-- An abstract match oracle: for each offset, the length of the match
starting there, if any.  A literal needle yields `strMatcher`; for regex
queries this stands for the compiled pattern applied at one position
(the `RegExpCursor` engine, modelled from the spec, section 4.2). -/
abbrev Matcher : Type := Nat → Option Nat

/-- The match oracle of a literal needle under case folding `norm`. -/
def strMatcher (norm : Char → Char) (doc needle : List Char) : Matcher :=
  fun p => if occursAt norm doc needle p then some needle.length else none

/-- Modelled from the spec: all matches lying entirely inside `[lo, hi]`,
as `(from, to)` pairs in increasing order of start offset.  This is the
set of positions a cursor bounded to `[lo, hi]` can ever report
(section 4.1: matching inside a bounded document range). -/
def matchList (m : Matcher) (lo hi : Nat) : List (Nat × Nat) :=
  (List.range (hi + 1)).filterMap (fun p =>
    if lo ≤ p then
      match m p with
      | some l => if p + l ≤ hi then some (p, p + l) else none
      | none => none
    else none)

/-- Modelled from the spec: the first match a fresh cursor over `[lo, hi]`
reports (`next()` or `nextOverlapping()` on a newly constructed cursor). -/
def firstIn (m : Matcher) (lo hi : Nat) : Option (Nat × Nat) :=
  (matchList m lo hi).head?

/-- Modelled from the spec: the last match a cursor over `[lo, hi]` reports
when advanced with `nextOverlapping()` until done (the chunk scan of
`prevMatchInRange` keeps the final `cursor.value`). -/
def lastIn (m : Matcher) (lo hi : Nat) : Option (Nat × Nat) :=
  (matchList m lo hi).getLast?

/-- Modelled from the spec: repeated `cursor.next()` over `[lo, hi]`
(section 4.1: `next` advances to the nearest match starting at or after the
previous match's end, so the enumeration is non-overlapping).  The fuel
argument bounds the recursion; `hi + 1` steps suffice for any nonempty
needle. -/
def nextPositions (m : Matcher) : Nat → Nat → Nat → List (Nat × Nat)
  | 0, _, _ => []
  | fuel + 1, lo, hi =>
    match firstIn m lo hi with
    | none => []
    | some r => r :: nextPositions m fuel r.2 hi

/-- Modelled from the spec: repeated `cursor.nextOverlapping()` over
`[lo, hi]` (sections 4.1 and 4.2: the search resumes at the previous
match's start plus one, so overlapping matches are surfaced). -/
def overPositions (m : Matcher) : Nat → Nat → Nat → List (Nat × Nat)
  | 0, _, _ => []
  | fuel + 1, lo, hi =>
    match firstIn m lo hi with
    | none => []
    | some r => r :: overPositions m fuel (r.1 + 1) hi

/-- From `word.ts`: a literal search query. -/
structure StringQuery where
  search : List Char
  replace : List Char
  caseInsensitive : Bool

/-- The per-character case folding `StringQuery.cursor` passes to
`SearchCursor`: `toLowerCase` when case insensitive, identity otherwise. -/
def qnorm (q : StringQuery) : Char → Char :=
  if q.caseInsensitive then Char.toLower else id

/-- From `word.ts` (`StringQuery.nextMatch`): take the first match of a
cursor over `[curTo, doc.length]`; if it is done, retry with a cursor
over `[0, curFrom]`. -/
def StringQuery.nextMatch (q : StringQuery) (doc : List Char)
    (curFrom curTo : Nat) : Option (Nat × Nat) :=
  match firstIn (strMatcher (qnorm q) doc q.search) curTo doc.length with
  | some r => some r
  | none => firstIn (strMatcher (qnorm q) doc q.search) 0 curFrom

/-- `FindPrev.ChunkSize` from `word.ts`. -/
def chunkSize : Nat := 10000

/-- From `word.ts` (`StringQuery.prevMatchInRange`): reverse search by
scanning chunk after chunk forward.  Each chunk runs from
`max f (pos - chunkSize - search.length)` to `pos`; the last overlapping
match inside the chunk is returned if there is one; otherwise, when the
chunk start has clamped to `f` the whole range is exhausted, and otherwise
`pos` moves down by one chunk size.  (In the source the JS subtraction can
go below zero before the `max`; saturating `Nat` subtraction composed with
the same `max` yields the identical clamped start.) -/
def StringQuery.prevMatchInRange (q : StringQuery) (doc : List Char)
    (f : Nat) (pos : Nat) : Option (Nat × Nat) :=
  match lastIn (strMatcher (qnorm q) doc q.search)
      (max f (pos - (chunkSize + q.search.length))) pos with
  | some r => some r
  | none =>
    if max f (pos - (chunkSize + q.search.length)) = f then none
    else StringQuery.prevMatchInRange q doc f (pos - chunkSize)
termination_by pos
decreasing_by
  rename_i h
  have hgt : f < pos - (chunkSize + q.search.length) := by
    rcases Nat.lt_or_ge f (pos - (chunkSize + q.search.length)) with hlt | hge
    · exact hlt
    · exact absurd (Nat.max_eq_left hge) h
  have hc : chunkSize = 10000 := rfl
  omega

/-- From `word.ts` (`StringQuery.prevMatch`): search `[0, curFrom]` in
reverse; if that fails, fall back to `[curTo, doc.length]`. -/
def StringQuery.prevMatch (q : StringQuery) (doc : List Char)
    (curFrom curTo : Nat) : Option (Nat × Nat) :=
  match StringQuery.prevMatchInRange q doc 0 curFrom with
  | some r => some r
  | none => StringQuery.prevMatchInRange q doc curTo doc.length

/-- From `word.ts` (`StringQuery.getReplacement`): the replace string is
returned verbatim. -/
def StringQuery.getReplacement (q : StringQuery) (_r : Nat × Nat) : List Char :=
  q.replace

/-- From `word.ts` (`StringQuery.matchAll`): enumerate with `cursor.next()`,
aborting with null as soon as a match beyond the limit appears.  The loop's
early return on `ranges.length >= limit` at a newly found match is
equivalent to this count test: null exactly when more than `limit` matches
exist. -/
def StringQuery.matchAll (q : StringQuery) (doc : List Char)
    (limit : Nat) : Option (List (Nat × Nat)) :=
  let ranges := nextPositions (strMatcher (qnorm q) doc q.search)
    (doc.length + 1) 0 doc.length
  if limit < ranges.length then none else some ranges

/-- From `word.ts` (`RegExpQuery.getReplacement`): expansion of the
replacement template over `this.replace.replace(/\$([$&\d+])/g, ...)`.
`groups` is the regex match array: element 0 is the whole match text,
elements 1 and following are the capture groups.  A dollar followed by a
character of the class is consumed as a unit; any other dollar passes
through and scanning resumes at the following character, as the global
regex replace does. -/
def expandRe (groups : List (List Char)) : List Char → List Char
  | [] => []
  | '$' :: c :: rest =>
    if c = '$' then '$' :: expandRe groups rest
    else if c = '&' then groups.headD [] ++ expandRe groups rest
    else if c.isDigit then
      if c ≠ '0' ∧ c.toNat - 48 < groups.length then
        groups.getD (c.toNat - 48) [] ++ expandRe groups rest
      else '$' :: c :: expandRe groups rest
    else if c = '+' then '$' :: c :: expandRe groups rest
    else '$' :: expandRe groups (c :: rest)
  | c :: rest => c :: expandRe groups rest

/-- From `word.ts` (`RegExpQuery.nextMatch`): same shape as the literal
variant, over the abstract regex oracle `m` for the compiled pattern. -/
def RegExpQuery.nextMatch (m : Matcher) (docLen curFrom curTo : Nat) :
    Option (Nat × Nat) :=
  match firstIn m curTo docLen with
  | some r => some r
  | none => firstIn m 0 curFrom

/-- From `word.ts` (`RegExpQuery.prevMatch`): always null. -/
def RegExpQuery.prevMatch (_m : Matcher) (_docLen _curFrom _curTo : Nat) :
    Option (Nat × Nat) :=
  none

/-- From `word.ts` (`RegExpQuery.getReplacement`). -/
def RegExpQuery.getReplacement (replace : List Char)
    (groups : List (List Char)) : List Char :=
  expandRe groups replace

/-- From `word.ts` (`RegExpQuery.matchAll`): enumerate with
`cursor.nextOverlapping()`, null as soon as a match beyond the limit
appears. -/
def RegExpQuery.matchAll (m : Matcher) (docLen limit : Nat) :
    Option (List (Nat × Nat)) :=
  let ranges := overPositions m (docLen + 1) 0 docLen
  if limit < ranges.length then none else some ranges

/-- From `word.ts` (`replaceAll`), literal variant: `matchAll` with limit
`1e9` is dereferenced with a non-null assertion (outer `none` models the
crash of that assertion), each match maps to one
`(from, to, getReplacement)` change, and the command returns false without
dispatching (`some none`) when there are no changes. -/
def replaceAllStr (q : StringQuery) (doc : List Char) :
    Option (Option (List (Nat × Nat × List Char))) :=
  match StringQuery.matchAll q doc 1000000000 with
  | none => none
  | some ms =>
    let changes := ms.map (fun r => (r.1, r.2, StringQuery.getReplacement q r))
    if changes = [] then some none else some (some changes)

/-- From `word.ts` (`findNextOccurrence`): first search forward with one
`cursor.next()` from the last range's end; on failure, wrap with a cursor
over `[0, max 0 (lastRange.from - 1)]`, enumerating with `next()` and
returning the first match whose start is not the start of a selected
range. -/
def findNextOccurrence (doc : List Char) (ranges : List (Nat × Nat))
    (query : List Char) : Option (Nat × Nat) :=
  let lastR := ranges.getLastD (0, 0)
  match firstIn (strMatcher id doc query) lastR.2 doc.length with
  | some r => some r
  | none =>
    (nextPositions (strMatcher id doc query) (doc.length + 1)
        0 (max 0 (lastR.1 - 1))).find?
      (fun r => !(ranges.any (fun sel => sel.1 == r.1)))

/-- Result of the `selectNextOccurrence` command: delegate to `selectWord`
when some range is empty, fail without a selection change, or extend the
selection with one new range. -/
inductive SelectResult where
  | selectWord
  | fail
  | newSel (ranges : List (Nat × Nat))
deriving DecidableEq

/-- From `word.ts` (`selectNextOccurrence`): expand to words when any range
is empty; fail when the ranges' texts differ; otherwise add the occurrence
`findNextOccurrence` yields, if any.  `EditorSelection.addRange` is
external; modelled from the spec (section 4.6: the found occurrence is
appended to the selection). -/
def selectNextOccurrence (doc : List Char) (ranges : List (Nat × Nat)) :
    SelectResult :=
  if ranges.any (fun sel => sel.1 == sel.2) then SelectResult.selectWord
  else
    let r0 := ranges.headD (0, 0)
    let searchedText := sliceDoc doc r0.1 r0.2
    if ranges.any (fun r => !(sliceDoc doc r.1 r.2 == searchedText)) then
      SelectResult.fail
    else
      match findNextOccurrence doc ranges searchedText with
      | none => SelectResult.fail
      | some r => SelectResult.newSel (ranges ++ [r])

/-- The two decoration marks of `selection-match.ts`: `matchDeco`
(class `cm-selectionMatch`) and `mainMatchDeco`
(class `cm-selectionMatch cm-selectionMatch-main`). -/
inductive DecoKind where
  | main
  | other
deriving DecidableEq

/-- From `selection-match.ts` (`matchHighlighter.getDeco`), the decoration
loop over the matches of one visible range.  `check` is `some` categorizer
in word-around-cursor mode and `none` in plain selection mode (the source
tests `check` for null in the same two places).  `rF, rT` are the main
selection range's ends.  The result is `none` when the match count cap is
exceeded (the source's early `return Decoration.none`). -/
def decoLoop (check : Option (List Char → CharCategory)) (doc : List Char)
    (rF rT maxMatches : Nat) :
    List (Nat × Nat) → List (Nat × Nat × DecoKind) →
    Option (List (Nat × Nat × DecoKind))
  | [], acc => some acc
  | (f, t) :: rest, acc =>
    if (match check with
        | none => true
        | some ck => insideWordBoundaries ck doc f t) then
      let acc' :=
        if check.isSome && decide (f ≤ rF) && decide (rT ≤ t) then
          acc ++ [(f, t, DecoKind.main)]
        else if decide (rT ≤ f) || decide (t ≤ rF) then
          acc ++ [(f, t, DecoKind.other)]
        else acc
      if maxMatches < acc'.length then none
      else decoLoop check doc rF rT maxMatches rest acc'
    else decoLoop check doc rF rT maxMatches rest acc

/-- From `selection-match.ts` (`matchHighlighter.getDeco`), word-around-cursor
mode for one visible range `[visFrom, visTo]`: the selection is a single
empty cursor at `head`, `query` is the text of the word around it
(`state.wordAt` is external; modelled from the spec, section 4.5), and the
cursor is constructed without case folding. -/
def getDecoWord (check : List Char → CharCategory) (doc : List Char)
    (head : Nat) (query : List Char) (visFrom visTo maxMatches : Nat) :
    Option (List (Nat × Nat × DecoKind)) :=
  decoLoop (some check) doc head head maxMatches
    (overPositions (strMatcher id doc query) (doc.length + 1) visFrom visTo) []

/-- From `selection-match.ts` (`matchHighlighter.getDeco`), plain selection
mode for one visible range: the selection is the non-empty range
`[rF, rT)` and `query` its (trimmed) text; no categorizer is consulted. -/
def getDecoSel (doc : List Char) (rF rT : Nat) (query : List Char)
    (visFrom visTo maxMatches : Nat) :
    Option (List (Nat × Nat × DecoKind)) :=
  decoLoop none doc rF rT maxMatches
    (overPositions (strMatcher id doc query) (doc.length + 1) visFrom visTo) []

/-- A concrete word classifier used to exercise the theorems: letters are
word characters, any other single character is other, and non-single
slices (empty or longer) are space. -/
def alphaCheck : List Char → CharCategory := fun s =>
  match s with
  | [c] => if c.isAlpha then CharCategory.Word else CharCategory.Other
  | _ => CharCategory.Space

theorem mem_matchList {m : Matcher} {lo hi p t : Nat} :
    (p, t) ∈ matchList m lo hi ↔
      lo ≤ p ∧ m p = some (t - p) ∧ p ≤ t ∧ t ≤ hi := by
  unfold matchList
  rw [List.mem_filterMap]
  constructor
  · rintro ⟨a, ha, hfn⟩
    rw [List.mem_range] at ha
    split at hfn
    · split at hfn
      · split at hfn
        · rename_i hlo hmatch l hml hle
          have h2 : (a, a + l) = (p, t) := by injection hfn
          have hp1 : a = p := congrArg Prod.fst h2
          have hp2 : a + l = t := congrArg Prod.snd h2
          subst hp1
          subst hp2
          refine ⟨hlo, ?_, by omega, hle⟩
          rw [hml]
          congr 1
          omega
        · cases hfn
      · cases hfn
    · cases hfn
  · rintro ⟨h1, h2, h3, h4⟩
    refine ⟨p, List.mem_range.mpr (by omega), ?_⟩
    rw [if_pos h1, h2]
    have hk : p + (t - p) = t := by omega
    simp only [hk, if_pos h4]

theorem pairwise_filterMap_fst {fn : Nat → Option (Nat × Nat)}
    (hfn : ∀ a x, fn a = some x → x.1 = a) :
    ∀ {l : List Nat}, l.Pairwise (· < ·) →
      (l.filterMap fn).Pairwise (fun x y => x.1 < y.1) := by
  intro l hl
  induction l with
  | nil => simp
  | cons a t ih =>
    rw [List.filterMap_cons]
    rcases List.pairwise_cons.mp hl with ⟨ha, ht⟩
    cases hfa : fn a with
    | none => exact ih ht
    | some x =>
      refine List.Pairwise.cons ?_ (ih ht)
      intro y hy
      obtain ⟨b, hb, hfb⟩ := List.mem_filterMap.mp hy
      have h1 := hfn a x hfa
      have h2 := hfn b y hfb
      have h3 := ha b hb
      omega

theorem matchList_pairwise (m : Matcher) (lo hi : Nat) :
    (matchList m lo hi).Pairwise (fun x y => x.1 < y.1) := by
  unfold matchList
  refine pairwise_filterMap_fst ?_ (List.pairwise_lt_range (hi + 1))
  intro a x hfa
  split at hfa
  · split at hfa
    · split at hfa
      · cases hfa; rfl
      · cases hfa
    · cases hfa
  · cases hfa

theorem head?_some_mem {α : Type} {l : List α} {x : α}
    (h : l.head? = some x) : x ∈ l := by
  cases l with
  | nil => cases h
  | cons a t =>
    simp only [List.head?_cons, Option.some.injEq] at h
    subst h
    exact List.mem_cons_self _ _

theorem head?_min {l : List (Nat × Nat)}
    (hp : l.Pairwise (fun x y => x.1 < y.1)) {x : Nat × Nat}
    (hx : l.head? = some x) : ∀ y ∈ l, x.1 ≤ y.1 := by
  cases l with
  | nil => cases hx
  | cons a t =>
    simp only [List.head?_cons, Option.some.injEq] at hx
    subst hx
    intro y hy
    rcases List.mem_cons.mp hy with rfl | hyt
    · exact Nat.le_refl _
    · exact Nat.le_of_lt ((List.pairwise_cons.mp hp).1 y hyt)

theorem getLast?_some_mem {α : Type} {l : List α} {x : α}
    (h : l.getLast? = some x) : x ∈ l := by
  rw [List.getLast?_eq_head?_reverse] at h
  exact List.mem_reverse.mp (head?_some_mem h)

theorem getLast?_max {l : List (Nat × Nat)}
    (hp : l.Pairwise (fun x y => x.1 < y.1)) {x : Nat × Nat}
    (hx : l.getLast? = some x) : ∀ y ∈ l, y.1 ≤ x.1 := by
  rw [List.getLast?_eq_head?_reverse] at hx
  have hp' : l.reverse.Pairwise (fun x y => y.1 < x.1) :=
    List.pairwise_reverse.mpr hp
  intro y hy
  cases hrev : l.reverse with
  | nil =>
    rw [hrev] at hx
    simp at hx
  | cons a t =>
    rw [hrev] at hx
    simp only [List.head?_cons, Option.some.injEq] at hx
    subst hx
    have hy' : y ∈ l.reverse := List.mem_reverse.mpr hy
    rw [hrev] at hy'
    rcases List.mem_cons.mp hy' with rfl | hyt
    · exact Nat.le_refl _
    · rw [hrev] at hp'
      exact Nat.le_of_lt ((List.pairwise_cons.mp hp').1 y hyt)

theorem matchList_fst_inj {m : Matcher} {lo hi : Nat} {x y : Nat × Nat}
    (hx : x ∈ matchList m lo hi) (hy : y ∈ matchList m lo hi)
    (h : x.1 = y.1) : x = y := by
  obtain ⟨p, t⟩ := x
  obtain ⟨p', t'⟩ := y
  simp only at h
  subst h
  obtain ⟨_, hm1, hle1, _⟩ := mem_matchList.mp hx
  obtain ⟨_, hm2, hle2, _⟩ := mem_matchList.mp hy
  rw [hm1] at hm2
  have h5 : t - p = t' - p := by injection hm2
  have h6 : t = t' := by omega
  subst h6
  rfl

theorem firstIn_eq_none_iff {m : Matcher} {lo hi : Nat} :
    firstIn m lo hi = none ↔ matchList m lo hi = [] := by
  unfold firstIn
  exact List.head?_eq_none_iff

theorem lastIn_eq_none_iff {m : Matcher} {lo hi : Nat} :
    lastIn m lo hi = none ↔ matchList m lo hi = [] := by
  unfold lastIn
  rw [List.getLast?_eq_head?_reverse, List.head?_eq_none_iff]
  exact List.reverse_eq_nil_iff

theorem firstIn_spec {m : Matcher} {lo hi : Nat} {x : Nat × Nat}
    (h : firstIn m lo hi = some x) :
    x ∈ matchList m lo hi ∧ ∀ y ∈ matchList m lo hi, x.1 ≤ y.1 :=
  ⟨head?_some_mem h, head?_min (matchList_pairwise m lo hi) h⟩

theorem lastIn_spec {m : Matcher} {lo hi : Nat} {x : Nat × Nat}
    (h : lastIn m lo hi = some x) :
    x ∈ matchList m lo hi ∧ ∀ y ∈ matchList m lo hi, y.1 ≤ x.1 :=
  ⟨getLast?_some_mem h, getLast?_max (matchList_pairwise m lo hi) h⟩

theorem lastIn_eq_some_of {m : Matcher} {lo hi : Nat} {x : Nat × Nat}
    (hmem : x ∈ matchList m lo hi)
    (hmax : ∀ y ∈ matchList m lo hi, y.1 ≤ x.1) :
    lastIn m lo hi = some x := by
  cases hlast : lastIn m lo hi with
  | none =>
    rw [lastIn_eq_none_iff] at hlast
    rw [hlast] at hmem
    cases hmem
  | some z =>
    obtain ⟨hzmem, hzmax⟩ := lastIn_spec hlast
    have h1 := hmax z hzmem
    have h2 := hzmax x hmem
    have : z = x := matchList_fst_inj hzmem hmem (by omega)
    rw [this]

theorem mem_matchList' {m : Matcher} {lo hi : Nat} {x : Nat × Nat} :
    x ∈ matchList m lo hi ↔
      lo ≤ x.1 ∧ m x.1 = some (x.2 - x.1) ∧ x.1 ≤ x.2 ∧ x.2 ≤ hi := by
  obtain ⟨p, t⟩ := x
  exact mem_matchList

theorem matchList_mono_lo {m : Matcher} {lo lo' hi : Nat} {x : Nat × Nat}
    (h : x ∈ matchList m lo' hi) (hle : lo ≤ lo') : x ∈ matchList m lo hi := by
  obtain ⟨h1, h2, h3, h4⟩ := mem_matchList'.mp h
  exact mem_matchList'.mpr ⟨by omega, h2, h3, h4⟩

theorem matchList_mono_hi {m : Matcher} {lo hi hi' : Nat} {x : Nat × Nat}
    (h : x ∈ matchList m lo hi) (hle : hi ≤ hi') : x ∈ matchList m lo hi' := by
  obtain ⟨h1, h2, h3, h4⟩ := mem_matchList'.mp h
  exact mem_matchList'.mpr ⟨h1, h2, h3, by omega⟩

theorem strMatcher_len {norm : Char → Char} {doc needle : List Char}
    {p l : Nat} (h : strMatcher norm doc needle p = some l) :
    l = needle.length := by
  unfold strMatcher at h
  split at h
  · injection h with h'
    exact h'.symm
  · cases h

theorem strMatcher_eq_some {norm : Char → Char} {doc needle : List Char}
    {p : Nat} (h : occursAt norm doc needle p = true) :
    strMatcher norm doc needle p = some needle.length := by
  unfold strMatcher
  rw [if_pos h]

theorem prevMatchInRange_eq (q : StringQuery) (doc : List Char) (f : Nat) :
    ∀ pos, StringQuery.prevMatchInRange q doc f pos =
      lastIn (strMatcher (qnorm q) doc q.search) f pos := by
  intro pos
  induction pos using Nat.strong_induction_on with
  | _ pos ih =>
    unfold StringQuery.prevMatchInRange
    split
    · rename_i r hc
      obtain ⟨hmem, hmax⟩ := lastIn_spec hc
      have hfs : f ≤ max f (pos - (chunkSize + q.search.length)) :=
        Nat.le_max_left _ _
      have hmem' : r ∈ matchList (strMatcher (qnorm q) doc q.search) f pos :=
        matchList_mono_lo hmem hfs
      refine (lastIn_eq_some_of hmem' ?_).symm
      intro y hy
      by_contra hlt
      push_neg at hlt
      have hsy : max f (pos - (chunkSize + q.search.length)) ≤ y.1 := by
        obtain ⟨hr1, _, _, _⟩ := mem_matchList'.mp hmem
        omega
      have hy' : y ∈ matchList (strMatcher (qnorm q) doc q.search)
          (max f (pos - (chunkSize + q.search.length))) pos := by
        obtain ⟨_, h2, h3, h4⟩ := mem_matchList'.mp hy
        exact mem_matchList'.mpr ⟨hsy, h2, h3, h4⟩
      have := hmax y hy'
      omega
    · rename_i hc
      split
      · rename_i heq
        rw [heq] at hc
        exact hc.symm
      · rename_i hne
        have hgt : f < pos - (chunkSize + q.search.length) := by
          rcases Nat.lt_or_ge f (pos - (chunkSize + q.search.length)) with hlt | hge
          · exact hlt
          · exact absurd (Nat.max_eq_left hge) hne
        have hstart : max f (pos - (chunkSize + q.search.length)) =
            pos - (chunkSize + q.search.length) :=
          Nat.max_eq_right (Nat.le_of_lt hgt)
        have hcs : chunkSize = 10000 := rfl
        have hdec : pos - chunkSize < pos := by omega
        rw [ih (pos - chunkSize) hdec]
        have hempty : matchList (strMatcher (qnorm q) doc q.search)
            (max f (pos - (chunkSize + q.search.length))) pos = [] :=
          lastIn_eq_none_iff.mp hc
        have hA : ∀ x ∈ matchList (strMatcher (qnorm q) doc q.search) f pos,
            x ∈ matchList (strMatcher (qnorm q) doc q.search) f (pos - chunkSize) := by
          intro x hx
          obtain ⟨h1, h2, h3, h4⟩ := mem_matchList'.mp hx
          have hlen : x.2 - x.1 = q.search.length := strMatcher_len h2
          by_cases hcut : x.2 ≤ pos - chunkSize
          · exact mem_matchList'.mpr ⟨h1, h2, h3, hcut⟩
          · exfalso
            have hxs : max f (pos - (chunkSize + q.search.length)) ≤ x.1 := by
              rw [hstart]
              omega
            have hx2 : x ∈ matchList (strMatcher (qnorm q) doc q.search)
                (max f (pos - (chunkSize + q.search.length))) pos :=
              mem_matchList'.mpr ⟨hxs, h2, h3, h4⟩
            rw [hempty] at hx2
            cases hx2
        cases hlow : lastIn (strMatcher (qnorm q) doc q.search) f (pos - chunkSize) with
        | none =>
          refine Eq.symm ?_
          rw [lastIn_eq_none_iff] at hlow ⊢
          rw [List.eq_nil_iff_forall_not_mem] at hlow ⊢
          intro x hx
          exact hlow x (hA x hx)
        | some r =>
          obtain ⟨hmem, hmax⟩ := lastIn_spec hlow
          refine (lastIn_eq_some_of (matchList_mono_hi hmem (by omega)) ?_).symm
          intro y hy
          exact hmax y (hA y hy)

theorem nextPositions_mem {m : Matcher} :
    ∀ {fuel lo hi : Nat} {x : Nat × Nat}, x ∈ nextPositions m fuel lo hi →
      x ∈ matchList m lo hi := by
  intro fuel
  induction fuel with
  | zero =>
    intro lo hi x hx
    simp only [nextPositions] at hx
    cases hx
  | succ n ih =>
    intro lo hi x hx
    cases hfi : firstIn m lo hi with
    | none =>
      simp only [nextPositions, hfi] at hx
      cases hx
    | some r =>
      simp only [nextPositions, hfi] at hx
      rcases List.mem_cons.mp hx with rfl | hxt
      · exact (firstIn_spec hfi).1
      · have hx2 := ih hxt
        have hr := mem_matchList'.mp (firstIn_spec hfi).1
        exact matchList_mono_lo hx2 (by omega)

theorem nextPositions_chain {m : Matcher} :
    ∀ {fuel lo hi : Nat},
      (nextPositions m fuel lo hi).Pairwise (fun a b => a.2 ≤ b.1) := by
  intro fuel
  induction fuel with
  | zero =>
    intro lo hi
    simp [nextPositions]
  | succ n ih =>
    intro lo hi
    cases hfi : firstIn m lo hi with
    | none => simp [nextPositions, hfi]
    | some r =>
      simp only [nextPositions, hfi]
      refine List.Pairwise.cons ?_ ih
      intro y hy
      exact (mem_matchList'.mp (nextPositions_mem hy)).1

theorem nextPositions_cover {m : Matcher}
    (hpos : ∀ p l, m p = some l → 1 ≤ l) :
    ∀ {fuel lo hi p l : Nat}, hi + 1 ≤ fuel + lo → m p = some l →
      lo ≤ p → p + l ≤ hi →
      ∃ x ∈ nextPositions m fuel lo hi, x.1 ≤ p ∧ p < x.2 := by
  intro fuel
  induction fuel with
  | zero =>
    intro lo hi p l hfuel hm hlo hle
    exfalso
    have := hpos p l hm
    omega
  | succ n ih =>
    intro lo hi p l hfuel hm hlo hle
    have hpm : (p, p + l) ∈ matchList m lo hi :=
      mem_matchList.mpr ⟨hlo, by rw [hm]; congr 1; omega, by omega, hle⟩
    cases hfi : firstIn m lo hi with
    | none =>
      rw [firstIn_eq_none_iff] at hfi
      rw [hfi] at hpm
      cases hpm
    | some r =>
      have hrmin : r.1 ≤ p := (firstIn_spec hfi).2 _ hpm
      have hrmem := (firstIn_spec hfi).1
      obtain ⟨hr1, hr2, hr3, hr4⟩ := mem_matchList'.mp hrmem
      have hrlen : 1 ≤ r.2 - r.1 := hpos _ _ hr2
      by_cases hcov : p < r.2
      · refine ⟨r, ?_, hrmin, hcov⟩
        simp only [nextPositions, hfi]
        exact List.mem_cons_self _ _
      · push_neg at hcov
        obtain ⟨x, hx1, hx2⟩ :=
          ih (show hi + 1 ≤ n + r.2 by omega) hm hcov hle
        refine ⟨x, ?_, hx2⟩
        simp only [nextPositions, hfi]
        exact List.mem_cons_of_mem _ hx1

theorem sorted_eq_of_mem_iff :
    ∀ {l1 l2 : List (Nat × Nat)}, l1.Pairwise (fun a b => a.1 < b.1) →
      l2.Pairwise (fun a b => a.1 < b.1) → (∀ x, x ∈ l1 ↔ x ∈ l2) →
      l1 = l2 := by
  intro l1
  induction l1 with
  | nil =>
    intro l2 _ _ h
    cases l2 with
    | nil => rfl
    | cons b t2 =>
      exact absurd ((h b).mpr (List.mem_cons_self _ _)) (List.not_mem_nil b)
  | cons a t1 ih =>
    intro l2 hp1 hp2 h
    cases l2 with
    | nil =>
      exact absurd ((h a).mp (List.mem_cons_self _ _)) (List.not_mem_nil a)
    | cons b t2 =>
      have hab : a = b := by
        have ha2 : a ∈ b :: t2 := (h a).mp (List.mem_cons_self _ _)
        have hb1 : b ∈ a :: t1 := (h b).mpr (List.mem_cons_self _ _)
        rcases List.mem_cons.mp ha2 with h1 | h1
        · exact h1
        · rcases List.mem_cons.mp hb1 with h2 | h2
          · exact h2.symm
          · have hba := (List.pairwise_cons.mp hp2).1 a h1
            have hab := (List.pairwise_cons.mp hp1).1 b h2
            omega
      subst hab
      congr 1
      refine ih (List.pairwise_cons.mp hp1).2 (List.pairwise_cons.mp hp2).2 ?_
      intro x
      constructor
      · intro hx
        have hax : a.1 < x.1 := (List.pairwise_cons.mp hp1).1 x hx
        rcases List.mem_cons.mp ((h x).mp (List.mem_cons_of_mem _ hx)) with rfl | h2
        · omega
        · exact h2
      · intro hx
        have hax : a.1 < x.1 := (List.pairwise_cons.mp hp2).1 x hx
        rcases List.mem_cons.mp ((h x).mpr (List.mem_cons_of_mem _ hx)) with rfl | h2
        · omega
        · exact h2

theorem overPositions_eq_matchList {m : Matcher} :
    ∀ {fuel lo hi : Nat}, hi + 1 ≤ fuel + lo →
      overPositions m fuel lo hi = matchList m lo hi := by
  intro fuel
  induction fuel with
  | zero =>
    intro lo hi hfuel
    simp only [overPositions]
    refine Eq.symm ?_
    rw [List.eq_nil_iff_forall_not_mem]
    intro x hx
    obtain ⟨h1, _, h3, h4⟩ := mem_matchList'.mp hx
    omega
  | succ n ih =>
    intro lo hi hfuel
    cases hfi : firstIn m lo hi with
    | none =>
      simp only [overPositions, hfi]
      exact (firstIn_eq_none_iff.mp hfi).symm
    | some r =>
      simp only [overPositions, hfi]
      obtain ⟨hrmem, hrmin⟩ := firstIn_spec hfi
      have hr1 : lo ≤ r.1 := (mem_matchList'.mp hrmem).1
      rw [ih (show hi + 1 ≤ n + (r.1 + 1) by omega)]
      refine sorted_eq_of_mem_iff ?_ (matchList_pairwise m lo hi) ?_
      · refine List.Pairwise.cons ?_ (matchList_pairwise m (r.1 + 1) hi)
        intro y hy
        have := (mem_matchList'.mp hy).1
        omega
      · intro x
        constructor
        · intro hx
          rcases List.mem_cons.mp hx with rfl | hxt
          · exact hrmem
          · exact matchList_mono_lo hxt (by omega)
        · intro hx
          by_cases hxr : x.1 = r.1
          · have hxeq : x = r := matchList_fst_inj hx hrmem hxr
            rw [hxeq]
            exact List.mem_cons_self _ _
          · have hmin := hrmin x hx
            refine List.mem_cons_of_mem _ ?_
            obtain ⟨h1, h2, h3, h4⟩ := mem_matchList'.mp hx
            exact mem_matchList'.mpr ⟨by omega, h2, h3, h4⟩

theorem decoLoop_mem_cases (check' : Option (List Char → CharCategory))
    (doc : List Char) (rF rT maxM : Nat) :
    ∀ (ms : List (Nat × Nat)) (acc l : List (Nat × Nat × DecoKind)),
      decoLoop check' doc rF rT maxM ms acc = some l →
      ∀ x ∈ l, x ∈ acc ∨
        ((x.1, x.2.1) ∈ ms ∧
         (∀ ck, check' = some ck →
            insideWordBoundaries ck doc x.1 x.2.1 = true) ∧
         ((x.2.2 = DecoKind.main ∧
             (check'.isSome && decide (x.1 ≤ rF) && decide (rT ≤ x.2.1)) = true) ∨
          (x.2.2 = DecoKind.other ∧
             (check'.isSome && decide (x.1 ≤ rF) && decide (rT ≤ x.2.1)) = false ∧
             (decide (rT ≤ x.1) || decide (x.2.1 ≤ rF)) = true))) := by
  intro ms
  induction ms with
  | nil =>
    intro acc l hres x hx
    simp only [decoLoop] at hres
    cases hres
    exact Or.inl hx
  | cons hd rest ih =>
    obtain ⟨f, t⟩ := hd
    intro acc l hres x hx
    simp only [decoLoop] at hres
    split at hres
    · rename_i hbound
      split at hres
      · rename_i hmain
        split at hres
        · cases hres
        · rcases ih _ _ hres x hx with hacc | hrest
          · rcases List.mem_append.mp hacc with h | h
            · exact Or.inl h
            · simp only [List.mem_singleton] at h
              subst h
              refine Or.inr ⟨List.mem_cons_self _ _, ?_, Or.inl ⟨rfl, hmain⟩⟩
              intro ck hck
              rw [hck] at hbound
              exact hbound
          · obtain ⟨h1, h2, h3⟩ := hrest
            exact Or.inr ⟨List.mem_cons_of_mem _ h1, h2, h3⟩
      · rename_i hmain
        split at hres
        · rename_i hoth
          split at hres
          · cases hres
          · rcases ih _ _ hres x hx with hacc | hrest
            · rcases List.mem_append.mp hacc with h | h
              · exact Or.inl h
              · simp only [List.mem_singleton] at h
                subst h
                refine Or.inr ⟨List.mem_cons_self _ _, ?_,
                  Or.inr ⟨rfl, Bool.eq_false_iff.mpr hmain, hoth⟩⟩
                intro ck hck
                rw [hck] at hbound
                exact hbound
            · obtain ⟨h1, h2, h3⟩ := hrest
              exact Or.inr ⟨List.mem_cons_of_mem _ h1, h2, h3⟩
        · split at hres
          · cases hres
          · rcases ih _ _ hres x hx with hacc | hrest
            · exact Or.inl hacc
            · obtain ⟨h1, h2, h3⟩ := hrest
              exact Or.inr ⟨List.mem_cons_of_mem _ h1, h2, h3⟩
    · rcases ih _ _ hres x hx with hacc | hrest
      · exact Or.inl hacc
      · obtain ⟨h1, h2, h3⟩ := hrest
        exact Or.inr ⟨List.mem_cons_of_mem _ h1, h2, h3⟩

theorem sliceDoc_take_drop (doc : List Char) (i : Nat) :
    sliceDoc doc i (i + 1) = (doc.drop i).take 1 := by
  unfold sliceDoc
  rw [List.drop_take]
  congr 1
  omega

theorem occursAt_take {norm : Char → Char} {doc needle : List Char} {p : Nat}
    (h : occursAt norm doc needle p = true) :
    p + needle.length ≤ doc.length ∧
      ((doc.drop p).take needle.length).map norm = needle.map norm := by
  unfold occursAt at h
  simp only [Bool.and_eq_true, decide_eq_true_eq] at h
  exact h

theorem occursAt_id_first {doc needle : List Char} {p : Nat}
    (h : occursAt id doc needle p = true) (hne : needle ≠ []) :
    sliceDoc doc p (p + 1) = needle.take 1 := by
  obtain ⟨hlen, heq⟩ := occursAt_take h
  rw [List.map_id, List.map_id] at heq
  have h1 : 1 ≤ needle.length := List.length_pos.mpr hne
  rw [sliceDoc_take_drop, ← heq, List.take_take]
  congr 1
  omega

theorem occursAt_id_last {doc needle : List Char} {p : Nat}
    (h : occursAt id doc needle p = true) (hne : needle ≠ []) :
    sliceDoc doc (p + needle.length - 1) (p + needle.length) =
      needle.drop (needle.length - 1) := by
  obtain ⟨hlen, heq⟩ := occursAt_take h
  rw [List.map_id, List.map_id] at heq
  have h1 : 1 ≤ needle.length := List.length_pos.mpr hne
  have hstep : p + needle.length - 1 + 1 = p + needle.length := by omega
  nth_rewrite 2 [← hstep]
  have hr : needle.drop (needle.length - 1) =
      ((doc.drop p).take needle.length).drop (needle.length - 1) := by
    rw [heq]
  rw [sliceDoc_take_drop, hr, List.drop_take, List.drop_drop]
  congr 1
  · omega
  · congr 1
    omega

theorem singleton_of_length_one {α : Type} {l : List α} (h : l.length = 1) :
    ∃ c, l = [c] ∧ c ∈ l := by
  cases l with
  | nil => cases h
  | cons a t =>
    cases t with
    | nil => exact ⟨a, rfl, List.mem_cons_self _ _⟩
    | cons b t2 => simp at h

theorem nextMatchG_spec (m : Matcher) (docLen curFrom curTo : Nat) :
    (RegExpQuery.nextMatch m docLen curFrom curTo = none ↔
      matchList m curTo docLen = [] ∧ matchList m 0 curFrom = []) ∧
    (∀ r, RegExpQuery.nextMatch m docLen curFrom curTo = some r →
      (r ∈ matchList m curTo docLen ∧
        ∀ x ∈ matchList m curTo docLen, r.1 ≤ x.1) ∨
      (matchList m curTo docLen = [] ∧ r ∈ matchList m 0 curFrom ∧
        ∀ x ∈ matchList m 0 curFrom, r.1 ≤ x.1)) := by
  cases hfi : firstIn m curTo docLen with
  | some r0 =>
    obtain ⟨hmem, hmin⟩ := firstIn_spec hfi
    constructor
    · constructor
      · intro h
        simp only [RegExpQuery.nextMatch, hfi] at h
        cases h
      · rintro ⟨h1, _⟩
        rw [firstIn_eq_none_iff.mpr h1] at hfi
        cases hfi
    · intro r hr
      simp only [RegExpQuery.nextMatch, hfi] at hr
      have hr0 : r0 = r := by injection hr
      subst hr0
      exact Or.inl ⟨hmem, hmin⟩
  | none =>
    have h1 : matchList m curTo docLen = [] := firstIn_eq_none_iff.mp hfi
    constructor
    · constructor
      · intro h
        simp only [RegExpQuery.nextMatch, hfi] at h
        exact ⟨h1, firstIn_eq_none_iff.mp h⟩
      · rintro ⟨_, h2⟩
        simp only [RegExpQuery.nextMatch, hfi]
        exact firstIn_eq_none_iff.mpr h2
    · intro r hr
      simp only [RegExpQuery.nextMatch, hfi] at hr
      obtain ⟨hmem, hmin⟩ := firstIn_spec hr
      exact Or.inr ⟨h1, hmem, hmin⟩

/-- C1: counterexample to the claim as stated.  With the literal query
`"ab"` over the document `"ab"` and `curFrom = curTo = 1` (so
`curFrom ≤ curTo`), `nextMatch` returns none although the document does
contain a match (the needle occurs at offset 0 and fits in the document):
the only match straddles the excluded span, so "returns none only if the
whole document contains no match" is false. -/
theorem c1_counterexample :
    StringQuery.nextMatch ⟨"ab".toList, [], false⟩ "ab".toList 1 1 = none ∧
    occursAt (qnorm ⟨"ab".toList, [], false⟩) "ab".toList "ab".toList 0 = true ∧
    0 + ("ab".toList).length ≤ ("ab".toList).length ∧
    (1 : Nat) ≤ 1 := by
  decide

/-- C1 (amended): for every document, every query (literal, and regex over
any match oracle), and positions `curFrom`, `curTo`, `nextMatch` returns
the earliest match lying entirely within `[curTo, doc.length)`; if that
range holds no match it wraps and returns the earliest match lying
entirely within `[0, curFrom)`; it returns none exactly when neither of
those two ranges entirely contains a match (a match overlapping the
excluded span between `curFrom` and `curTo` is not found). -/
theorem c1_amended :
    (∀ (q : StringQuery) (doc : List Char) (curFrom curTo : Nat),
      (StringQuery.nextMatch q doc curFrom curTo = none ↔
        matchList (strMatcher (qnorm q) doc q.search) curTo doc.length = [] ∧
        matchList (strMatcher (qnorm q) doc q.search) 0 curFrom = []) ∧
      (∀ r, StringQuery.nextMatch q doc curFrom curTo = some r →
        (r ∈ matchList (strMatcher (qnorm q) doc q.search) curTo doc.length ∧
          ∀ x ∈ matchList (strMatcher (qnorm q) doc q.search) curTo doc.length,
            r.1 ≤ x.1) ∨
        (matchList (strMatcher (qnorm q) doc q.search) curTo doc.length = [] ∧
          r ∈ matchList (strMatcher (qnorm q) doc q.search) 0 curFrom ∧
          ∀ x ∈ matchList (strMatcher (qnorm q) doc q.search) 0 curFrom,
            r.1 ≤ x.1))) ∧
    (∀ (m : Matcher) (docLen curFrom curTo : Nat),
      (RegExpQuery.nextMatch m docLen curFrom curTo = none ↔
        matchList m curTo docLen = [] ∧ matchList m 0 curFrom = []) ∧
      (∀ r, RegExpQuery.nextMatch m docLen curFrom curTo = some r →
        (r ∈ matchList m curTo docLen ∧
          ∀ x ∈ matchList m curTo docLen, r.1 ≤ x.1) ∨
        (matchList m curTo docLen = [] ∧ r ∈ matchList m 0 curFrom ∧
          ∀ x ∈ matchList m 0 curFrom, r.1 ≤ x.1))) := by
  constructor
  · intro q doc curFrom curTo
    exact nextMatchG_spec (strMatcher (qnorm q) doc q.search) doc.length curFrom curTo
  · intro m docLen curFrom curTo
    exact nextMatchG_spec m docLen curFrom curTo

/-- C1 witness: the amended theorem applied to the counterexample input
shows both search ranges are free of matches there. -/
theorem c1_witness :
    matchList (strMatcher (qnorm ⟨"ab".toList, [], false⟩) "ab".toList "ab".toList) 1
      ("ab".toList).length = [] ∧
    matchList (strMatcher (qnorm ⟨"ab".toList, [], false⟩) "ab".toList "ab".toList) 0 1 = [] :=
  ((c1_amended.1 ⟨"ab".toList, [], false⟩ "ab".toList 1 1).1).mp (by decide)

/-- C2: `prevMatch` is the chunked backward scan of `prevMatchInRange`
(chunks of 10,000 characters extended backward by the needle length, last
overlapping match of the first chunk, scanning backward, that holds one)
over `[0, curFrom)`, falling back to `[curTo, doc.length)` once.  Its
result is therefore the latest match lying entirely within `[0, curFrom)`
when one exists, otherwise the latest match lying entirely within
`[curTo, doc.length)`, and none exactly when both ranges hold no match. -/
theorem c2_prevMatch (q : StringQuery) (doc : List Char) (curFrom curTo : Nat)
    (_hq : q.search ≠ []) :
    (StringQuery.prevMatch q doc curFrom curTo = none ↔
      matchList (strMatcher (qnorm q) doc q.search) 0 curFrom = [] ∧
      matchList (strMatcher (qnorm q) doc q.search) curTo doc.length = []) ∧
    (∀ r, StringQuery.prevMatch q doc curFrom curTo = some r →
      (r ∈ matchList (strMatcher (qnorm q) doc q.search) 0 curFrom ∧
        ∀ x ∈ matchList (strMatcher (qnorm q) doc q.search) 0 curFrom,
          x.1 ≤ r.1) ∨
      (matchList (strMatcher (qnorm q) doc q.search) 0 curFrom = [] ∧
        r ∈ matchList (strMatcher (qnorm q) doc q.search) curTo doc.length ∧
        ∀ x ∈ matchList (strMatcher (qnorm q) doc q.search) curTo doc.length,
          x.1 ≤ r.1)) := by
  cases hp : lastIn (strMatcher (qnorm q) doc q.search) 0 curFrom with
  | some r0 =>
    obtain ⟨hmem, hmax⟩ := lastIn_spec hp
    constructor
    · constructor
      · intro h
        simp only [StringQuery.prevMatch, prevMatchInRange_eq, hp] at h
        cases h
      · rintro ⟨h1, _⟩
        rw [lastIn_eq_none_iff.mpr h1] at hp
        cases hp
    · intro r hr
      simp only [StringQuery.prevMatch, prevMatchInRange_eq, hp] at hr
      have hr0 : r0 = r := by injection hr
      subst hr0
      exact Or.inl ⟨hmem, hmax⟩
  | none =>
    have h1 : matchList (strMatcher (qnorm q) doc q.search) 0 curFrom = [] :=
      lastIn_eq_none_iff.mp hp
    constructor
    · constructor
      · intro h
        simp only [StringQuery.prevMatch, prevMatchInRange_eq, hp] at h
        exact ⟨h1, lastIn_eq_none_iff.mp h⟩
      · rintro ⟨_, h2⟩
        simp only [StringQuery.prevMatch, prevMatchInRange_eq, hp]
        exact lastIn_eq_none_iff.mpr h2
    · intro r hr
      simp only [StringQuery.prevMatch, prevMatchInRange_eq, hp] at hr
      obtain ⟨hmem, hmax⟩ := lastIn_spec hr
      exact Or.inr ⟨h1, hmem, hmax⟩

/-- C2 witness: with the needle `"ab"` over `"ab ab ab"`, `curFrom = 7`,
`curTo = 8`, the theorem applied at a concrete input yields that the
returned match `(3, 5)` is the latest one before `curFrom`. -/
theorem c2_witness :
    ((3, 5) ∈ matchList
        (strMatcher (qnorm ⟨"ab".toList, [], false⟩) "ab ab ab".toList "ab".toList) 0 7 ∧
      ∀ x ∈ matchList
        (strMatcher (qnorm ⟨"ab".toList, [], false⟩) "ab ab ab".toList "ab".toList) 0 7,
        x.1 ≤ (3, 5).1) ∨
    (matchList
        (strMatcher (qnorm ⟨"ab".toList, [], false⟩) "ab ab ab".toList "ab".toList) 0 7 = [] ∧
      (3, 5) ∈ matchList
        (strMatcher (qnorm ⟨"ab".toList, [], false⟩) "ab ab ab".toList "ab".toList) 8
        ("ab ab ab".toList).length ∧
      ∀ x ∈ matchList
        (strMatcher (qnorm ⟨"ab".toList, [], false⟩) "ab ab ab".toList "ab".toList) 8
        ("ab ab ab".toList).length,
        x.1 ≤ (3, 5).1) :=
  (c2_prevMatch ⟨"ab".toList, [], false⟩ "ab ab ab".toList 7 8 (by decide)).2 (3, 5)
    (by
      simp only [StringQuery.prevMatch, prevMatchInRange_eq]
      decide)

/-- C10: every step of `prevMatchInRange` either returns the chunk's last
match, or returns none because the chunk start `max f (pos - 10000 - len)`
has clamped to `f`, or recurses with `pos` decreased by the fixed chunk
size 10,000, which strictly decreases `pos`; the loop therefore
terminates (the Lean definition is accepted by well-founded recursion on
`pos` with exactly this argument). -/
theorem c10_termination (q : StringQuery) (doc : List Char) (f pos : Nat) :
    (∃ r, lastIn (strMatcher (qnorm q) doc q.search)
        (max f (pos - (chunkSize + q.search.length))) pos = some r ∧
      StringQuery.prevMatchInRange q doc f pos = some r) ∨
    (lastIn (strMatcher (qnorm q) doc q.search)
        (max f (pos - (chunkSize + q.search.length))) pos = none ∧
      max f (pos - (chunkSize + q.search.length)) = f ∧
      StringQuery.prevMatchInRange q doc f pos = none) ∨
    (lastIn (strMatcher (qnorm q) doc q.search)
        (max f (pos - (chunkSize + q.search.length))) pos = none ∧
      max f (pos - (chunkSize + q.search.length)) ≠ f ∧
      StringQuery.prevMatchInRange q doc f pos =
        StringQuery.prevMatchInRange q doc f (pos - chunkSize) ∧
      chunkSize = 10000 ∧ pos - chunkSize < pos) := by
  cases hc : lastIn (strMatcher (qnorm q) doc q.search)
      (max f (pos - (chunkSize + q.search.length))) pos with
  | some r =>
    refine Or.inl ⟨r, rfl, ?_⟩
    rw [StringQuery.prevMatchInRange, hc]
  | none =>
    by_cases heq : max f (pos - (chunkSize + q.search.length)) = f
    · refine Or.inr (Or.inl ⟨rfl, heq, ?_⟩)
      rw [StringQuery.prevMatchInRange, hc]
      exact if_pos heq
    · have hgt : f < pos - (chunkSize + q.search.length) := by
        rcases Nat.lt_or_ge f (pos - (chunkSize + q.search.length)) with hlt | hge
        · exact hlt
        · exact absurd (Nat.max_eq_left hge) heq
      have hcs : chunkSize = 10000 := rfl
      refine Or.inr (Or.inr ⟨rfl, heq, ?_, rfl, by omega⟩)
      rw [StringQuery.prevMatchInRange, hc]
      exact if_neg heq

theorem strMatcher_some_occurs {norm : Char → Char} {doc needle : List Char}
    {p l : Nat} (h : strMatcher norm doc needle p = some l) :
    occursAt norm doc needle p = true ∧ l = needle.length := by
  unfold strMatcher at h
  split at h
  · rename_i hocc
    have h2 : needle.length = l := by injection h
    exact ⟨hocc, h2.symm⟩
  · cases h

/-- C3: counterexample to the claim as stated.  The regex variant of
`matchAll` advances with `nextOverlapping` (restart at `from + 1`), so for
the pattern `"aba"` (whose match oracle over `"ababa"` is exactly literal
occurrence) it returns the two overlapping matches `(0,3)` and `(2,5)`
within the limit, which is not the non-overlapping enumeration `[(0,3)]`:
the returned sequence contains a match starting before the previous one
ends (2 < 3). -/
theorem c3_counterexample :
    RegExpQuery.matchAll (strMatcher id "ababa".toList "aba".toList) 5 100 =
      some [(0, 3), (2, 5)] ∧
    nextPositions (strMatcher id "ababa".toList "aba".toList) 6 0 5 = [(0, 3)] ∧
    ¬(RegExpQuery.matchAll (strMatcher id "ababa".toList "aba".toList) 5 100 =
      some (nextPositions (strMatcher id "ababa".toList "aba".toList) 6 0 5)) ∧
    2 < 3 := by
  decide

/-- C3 (amended): the literal `matchAll` enumerates the greedy
non-overlapping matches in document order (each element is a match, the
elements are ordered and disjoint, and no match is skipped: every match
position is covered by some enumerated range) and returns none exactly
when the number of enumerated matches exceeds the limit.  The regex
`matchAll` instead enumerates every match position, overlapping ones
included (the cursor restarts at `from + 1`), and returns none exactly
when the number of all match positions exceeds the limit. -/
theorem c3_amended :
    (∀ (q : StringQuery) (doc : List Char) (limit : Nat), q.search ≠ [] →
      (∀ l, StringQuery.matchAll q doc limit = some l →
        l.length ≤ limit ∧
        (∀ x ∈ l, occursAt (qnorm q) doc q.search x.1 = true ∧
          x.2 = x.1 + q.search.length ∧ x.2 ≤ doc.length) ∧
        l.Pairwise (fun a b => a.2 ≤ b.1) ∧
        (∀ p, occursAt (qnorm q) doc q.search p = true →
          p + q.search.length ≤ doc.length →
          ∃ x ∈ l, x.1 ≤ p ∧ p < x.2)) ∧
      (StringQuery.matchAll q doc limit = none ↔
        limit < (nextPositions (strMatcher (qnorm q) doc q.search)
          (doc.length + 1) 0 doc.length).length)) ∧
    (∀ (m : Matcher) (docLen limit : Nat),
      (∀ l, RegExpQuery.matchAll m docLen limit = some l →
        l = matchList m 0 docLen ∧ l.length ≤ limit) ∧
      (RegExpQuery.matchAll m docLen limit = none ↔
        limit < (matchList m 0 docLen).length)) := by
  constructor
  · intro q doc limit hq
    constructor
    · intro l hsome
      simp only [StringQuery.matchAll] at hsome
      split at hsome
      · cases hsome
      · rename_i hlen
        have hl : nextPositions (strMatcher (qnorm q) doc q.search)
            (doc.length + 1) 0 doc.length = l := by injection hsome
        subst hl
        refine ⟨by omega, ?_, nextPositions_chain, ?_⟩
        · intro x hx
          obtain ⟨h1, h2, h3, h4⟩ := mem_matchList'.mp (nextPositions_mem hx)
          obtain ⟨hocc, hlen'⟩ := strMatcher_some_occurs h2
          exact ⟨hocc, by omega, h4⟩
        · intro p hocc hple
          have hpos : ∀ p' l', strMatcher (qnorm q) doc q.search p' = some l' →
              1 ≤ l' := by
            intro p' l' h'
            have hl' := strMatcher_len h'
            have hqlen : 0 < q.search.length := List.length_pos.mpr hq
            omega
          exact nextPositions_cover hpos (by omega)
            (strMatcher_eq_some hocc) (Nat.zero_le p) hple
    · simp only [StringQuery.matchAll]
      split
      · rename_i h
        exact iff_of_true rfl h
      · rename_i h
        constructor
        · intro hcontra
          cases hcontra
        · intro hlt
          exact absurd hlt h
  · intro m docLen limit
    have hov : overPositions m (docLen + 1) 0 docLen = matchList m 0 docLen :=
      overPositions_eq_matchList (by omega)
    constructor
    · intro l hsome
      simp only [RegExpQuery.matchAll] at hsome
      split at hsome
      · cases hsome
      · rename_i hlen
        have hl : overPositions m (docLen + 1) 0 docLen = l := by injection hsome
        subst hl
        exact ⟨hov, by omega⟩
    · simp only [RegExpQuery.matchAll]
      split
      · rename_i h
        rw [hov] at h
        exact iff_of_true rfl h
      · rename_i h
        rw [hov] at h
        constructor
        · intro hcontra
          cases hcontra
        · intro hlt
          exact absurd hlt h

/-- C3 witness: the amended theorem applied to the literal query `"aba"`
over `"ababa"` with limit 100, whose `matchAll` yields `[(0, 3)]`. -/
theorem c3_witness :
    [((0 : Nat), (3 : Nat))].length ≤ 100 ∧
    (∀ x ∈ [((0 : Nat), (3 : Nat))],
      occursAt (qnorm ⟨"aba".toList, [], false⟩) "ababa".toList "aba".toList x.1 = true ∧
      x.2 = x.1 + ("aba".toList).length ∧ x.2 ≤ ("ababa".toList).length) ∧
    [((0 : Nat), (3 : Nat))].Pairwise (fun a b => a.2 ≤ b.1) ∧
    (∀ p, occursAt (qnorm ⟨"aba".toList, [], false⟩) "ababa".toList "aba".toList p = true →
      p + ("aba".toList).length ≤ ("ababa".toList).length →
      ∃ x ∈ [((0 : Nat), (3 : Nat))], x.1 ≤ p ∧ p < x.2) :=
  (c3_amended.1 ⟨"aba".toList, [], false⟩ "ababa".toList 100 (by decide)).1
    [(0, 3)] (by decide)

/-- C9: `replaceAll` calls `matchAll` with limit `1e9` and dereferences
with a non-null assertion.  Whenever the number of matches stays within
`1e9`, that assertion cannot fire (the result is not the outer `none`),
and the command produces exactly one `(from, to, getReplacement)` change
per enumerated match, returning false with no dispatch (`some none`)
exactly when there is no match. -/
theorem c9_replaceAll (q : StringQuery) (doc : List Char)
    (_hvalid : q.search ≠ [])
    (hcount : (nextPositions (strMatcher (qnorm q) doc q.search)
      (doc.length + 1) 0 doc.length).length ≤ 1000000000) :
    replaceAllStr q doc ≠ none ∧
    replaceAllStr q doc =
      some (if nextPositions (strMatcher (qnorm q) doc q.search)
          (doc.length + 1) 0 doc.length = [] then none
        else some ((nextPositions (strMatcher (qnorm q) doc q.search)
          (doc.length + 1) 0 doc.length).map
            (fun r => (r.1, r.2, q.replace)))) := by
  have hmall : StringQuery.matchAll q doc 1000000000 =
      some (nextPositions (strMatcher (qnorm q) doc q.search)
        (doc.length + 1) 0 doc.length) := by
    simp only [StringQuery.matchAll]
    rw [if_neg (by omega)]
  constructor
  · simp only [replaceAllStr, hmall]
    split
    · intro h
      cases h
    · intro h
      cases h
  · simp only [replaceAllStr, hmall, StringQuery.getReplacement]
    by_cases hms : nextPositions (strMatcher (qnorm q) doc q.search)
        (doc.length + 1) 0 doc.length = []
    · rw [hms]
      simp
    · rw [if_neg (fun h => hms (List.map_eq_nil_iff.mp h)), if_neg hms]

/-- C9 witness: the theorem applied to the query `"ab" -> "xy"` over
`"ab ab"`: two matches, two changes, no crash. -/
theorem c9_witness :
    replaceAllStr ⟨"ab".toList, "xy".toList, false⟩ "ab ab".toList ≠ none ∧
    replaceAllStr ⟨"ab".toList, "xy".toList, false⟩ "ab ab".toList =
      some (if nextPositions
          (strMatcher (qnorm ⟨"ab".toList, "xy".toList, false⟩) "ab ab".toList "ab".toList)
          (("ab ab".toList).length + 1) 0 ("ab ab".toList).length = [] then none
        else some ((nextPositions
          (strMatcher (qnorm ⟨"ab".toList, "xy".toList, false⟩) "ab ab".toList "ab".toList)
          (("ab ab".toList).length + 1) 0 ("ab ab".toList).length).map
            (fun r => (r.1, r.2, "xy".toList)))) :=
  c9_replaceAll ⟨"ab".toList, "xy".toList, false⟩ "ab ab".toList (by decide) (by decide)

/-- C4: a literal query's `getReplacement` returns the replace string
verbatim.  A regex query's `getReplacement` expands `$&` to the whole
match text (`groups` element 0), `$n` for a digit `n` other than 0 to the
`n`-th capture group exactly when that index exists in the match array,
`$$` to a literal dollar, and leaves every other dollar sequence (a digit
referencing group 0 or a missing group, `$+`, any other character, or a
dollar not followed by a class character) unchanged in the output, with
ordinary characters copied through. -/
theorem c4_getReplacement :
    (∀ (q : StringQuery) (r : Nat × Nat),
      StringQuery.getReplacement q r = q.replace) ∧
    (∀ (groups : List (List Char)) (rest : List Char),
      RegExpQuery.getReplacement ('$' :: '&' :: rest) groups =
        groups.headD [] ++ RegExpQuery.getReplacement rest groups) ∧
    (∀ (groups : List (List Char)) (rest : List Char),
      RegExpQuery.getReplacement ('$' :: '$' :: rest) groups =
        '$' :: RegExpQuery.getReplacement rest groups) ∧
    (∀ (groups : List (List Char)) (rest : List Char) (c : Char),
      c.isDigit = true → c ≠ '0' → c.toNat - 48 < groups.length →
      RegExpQuery.getReplacement ('$' :: c :: rest) groups =
        groups.getD (c.toNat - 48) [] ++ RegExpQuery.getReplacement rest groups) ∧
    (∀ (groups : List (List Char)) (rest : List Char) (c : Char),
      c.isDigit = true → (c = '0' ∨ groups.length ≤ c.toNat - 48) →
      RegExpQuery.getReplacement ('$' :: c :: rest) groups =
        '$' :: c :: RegExpQuery.getReplacement rest groups) ∧
    (∀ (groups : List (List Char)) (rest : List Char),
      RegExpQuery.getReplacement ('$' :: '+' :: rest) groups =
        '$' :: '+' :: RegExpQuery.getReplacement rest groups) ∧
    (∀ (groups : List (List Char)) (rest : List Char) (c : Char),
      c ≠ '$' → c ≠ '&' → c.isDigit = false → c ≠ '+' →
      RegExpQuery.getReplacement ('$' :: c :: rest) groups =
        '$' :: RegExpQuery.getReplacement (c :: rest) groups) ∧
    (∀ (groups : List (List Char)) (rest : List Char) (c : Char),
      c ≠ '$' →
      RegExpQuery.getReplacement (c :: rest) groups =
        c :: RegExpQuery.getReplacement rest groups) ∧
    (∀ groups, RegExpQuery.getReplacement [] groups = []) := by
  refine ⟨fun q r => rfl, fun groups rest => rfl, fun groups rest => rfl,
    ?_, ?_, fun groups rest => rfl, ?_, ?_, fun groups => rfl⟩
  · intro groups rest c hdig hne hlt
    have hca : ¬(c = '$') := by
      intro h
      rw [h] at hdig
      exact absurd hdig (by decide)
    have hcb : ¬(c = '&') := by
      intro h
      rw [h] at hdig
      exact absurd hdig (by decide)
    simp only [RegExpQuery.getReplacement, expandRe]
    rw [if_neg hca, if_neg hcb, if_pos hdig, if_pos ⟨hne, hlt⟩]
  · intro groups rest c hdig hbad
    have hca : ¬(c = '$') := by
      intro h
      rw [h] at hdig
      exact absurd hdig (by decide)
    have hcb : ¬(c = '&') := by
      intro h
      rw [h] at hdig
      exact absurd hdig (by decide)
    simp only [RegExpQuery.getReplacement, expandRe]
    rw [if_neg hca, if_neg hcb, if_pos hdig, if_neg ?_]
    rintro ⟨h1, h2⟩
    rcases hbad with h | h
    · exact h1 h
    · omega
  · intro groups rest c h1 h2 h3 h4
    simp only [RegExpQuery.getReplacement, expandRe]
    rw [if_neg h1, if_neg h2, if_neg (by rw [h3]; exact Bool.false_ne_true),
      if_neg h4]
  · intro groups rest c h
    unfold RegExpQuery.getReplacement
    rw [expandRe.eq_def]
    split
    · rename_i heq
      cases heq
    · rename_i c1 rest1 heq
      exfalso
      have hc : c = '$' := by injection heq with ha hb
      exact h hc
    · rename_i hd tl hnot heq
      have ha : c = hd := by injection heq with ha hb
      have hb : rest = tl := by injection heq with ha hb
      subst ha
      subst hb
      rfl

/-- C4 witness: the digit-expansion case applied at a concrete input:
expanding `$1` with match array `["ab", "c"]` yields the first capture
group. -/
theorem c4_witness :
    RegExpQuery.getReplacement ['$', '1'] [['a', 'b'], ['c']] =
      [['a', 'b'], ['c']].getD ('1'.toNat - 48) [] ++
        RegExpQuery.getReplacement [] [['a', 'b'], ['c']] :=
  c4_getReplacement.2.2.2.1 [['a', 'b'], ['c']] [] '1' (by decide) (by decide)
    (by decide)

theorem sliceDoc_singleton {doc : List Char} {i : Nat} (h : i < doc.length) :
    sliceDoc doc i (i + 1) = [doc.getD i ' '] := by
  rw [sliceDoc_take_drop]
  cases hd : doc.drop i with
  | nil =>
    exfalso
    have hlen := List.drop_eq_nil_iff.mp hd
    omega
  | cons c cs =>
    have hget : doc[i]? = some c := by
      have h0 := List.getElem?_drop doc i 0
      rw [hd] at h0
      simpa using h0.symm
    rw [List.getD_eq_getElem?_getD, hget]
    rfl

/-- C5: over any document, word classifier, and non-empty in-bounds range
`[f, t)`, `isWholeWord` accepts exactly when (a) the character directly
before `f` and the character directly after `t` are not word characters
(or the range touches the document start or end), and (b) the character
at `f` and the character at `t - 1` are word characters. -/
theorem c5_isWholeWord (check : List Char → CharCategory) (doc : List Char)
    (f t : Nat) (h1 : f < t) (h2 : t ≤ doc.length) :
    isWholeWord check doc f t = true ↔
      ((f = 0 ∨ check [doc.getD (f - 1) ' '] ≠ CharCategory.Word) ∧
       (t = doc.length ∨ check [doc.getD t ' '] ≠ CharCategory.Word)) ∧
      (check [doc.getD f ' '] = CharCategory.Word ∧
       check [doc.getD (t - 1) ' '] = CharCategory.Word) := by
  have e1 : f ≠ 0 → sliceDoc doc (f - 1) f = [doc.getD (f - 1) ' '] := by
    intro hf0
    have hf : f - 1 + 1 = f := by omega
    nth_rewrite 2 [← hf]
    exact sliceDoc_singleton (by omega)
  have e2 : sliceDoc doc t (t + 1) = [doc.getD t ' '] ∨ t = doc.length := by
    by_cases hte : t = doc.length
    · exact Or.inr hte
    · exact Or.inl (sliceDoc_singleton (by omega))
  have e3 : sliceDoc doc f (f + 1) = [doc.getD f ' '] :=
    sliceDoc_singleton (by omega)
  have e4 : sliceDoc doc (t - 1) t = [doc.getD (t - 1) ' '] := by
    have ht : t - 1 + 1 = t := by omega
    nth_rewrite 2 [← ht]
    exact sliceDoc_singleton (by omega)
  unfold isWholeWord insideWordBoundaries insideWord
  simp only [Bool.and_eq_true, Bool.or_eq_true, decide_eq_true_eq]
  rw [e3, e4]
  constructor
  · rintro ⟨⟨hA, hB⟩, hC, hD⟩
    refine ⟨⟨?_, ?_⟩, hC, hD⟩
    · rcases hA with h | h
      · exact Or.inl h
      · by_cases hf0 : f = 0
        · exact Or.inl hf0
        · rw [e1 hf0] at h
          exact Or.inr h
    · rcases hB with h | h
      · exact Or.inl h
      · rcases e2 with he | he
        · rw [he] at h
          exact Or.inr h
        · exact Or.inl he
  · rintro ⟨⟨hA, hB⟩, hC, hD⟩
    refine ⟨⟨?_, ?_⟩, hC, hD⟩
    · rcases hA with h | h
      · exact Or.inl h
      · by_cases hf0 : f = 0
        · exact Or.inl hf0
        · rw [e1 hf0]
          exact Or.inr h
    · rcases hB with h | h
      · exact Or.inl h
      · rcases e2 with he | he
        · rw [he]
          exact Or.inr h
        · exact Or.inl he

/-- C5 witness: the theorem applied to the whole-word range `[0, 2)` of the
document `"ab"` under the letter classifier. -/
theorem c5_witness :
    ((0 = 0 ∨ alphaCheck [("ab".toList).getD (0 - 1) ' '] ≠ CharCategory.Word) ∧
     (2 = ("ab".toList).length ∨
       alphaCheck [("ab".toList).getD 2 ' '] ≠ CharCategory.Word)) ∧
    (alphaCheck [("ab".toList).getD 0 ' '] = CharCategory.Word ∧
     alphaCheck [("ab".toList).getD (2 - 1) ' '] = CharCategory.Word) :=
  (c5_isWholeWord alphaCheck "ab".toList 0 2 (by decide) (by decide)).mp (by decide)

/-- C6: counterexample to the claim as stated.  Document `"abab"`, one
selected range `(2, 4)` whose text is `"ab"`.  The forward search from
the last range's end finds nothing, and the claim's wrap range
`[0, firstRange.start) = [0, 2)` does contain an unselected occurrence
(the skip-filtered scan of `[0, 2)` yields `(0, 2)`), so the claim says
the command succeeds and appends `(0, 2)`.  The code instead wraps over
`[0, max 0 (lastRange.from - 1)) = [0, 1)`, finds nothing, and fails. -/
theorem c6_counterexample :
    sliceDoc "abab".toList 2 4 = "ab".toList ∧
    selectNextOccurrence "abab".toList [(2, 4)] = SelectResult.fail ∧
    firstIn (strMatcher id "abab".toList "ab".toList) 4 ("abab".toList).length = none ∧
    (nextPositions (strMatcher id "abab".toList "ab".toList) 5 0 2).find?
      (fun r => !([((2 : Nat), (4 : Nat))].any (fun sel => sel.1 == r.1))) =
      some (0, 2) := by
  decide

/-- C6 (amended): for a non-empty selection of non-empty ranges that all
carry the same text, when the forward search from the last range's end
finds no occurrence, `selectNextOccurrence` wraps and searches
`[0, max 0 (lastRange.from - 1))` (not `[0, firstRange.start)`) for the
selected text, skipping any occurrence whose start coincides with the
start of a selected range, appends the occurrence found as one new
selection range, and fails without changing the selection when that scan
finds nothing. -/
theorem c6_amended (doc : List Char) (ranges : List (Nat × Nat))
    (_hne : ranges ≠ [])
    (hnonempty : ∀ r ∈ ranges, r.1 < r.2)
    (htext : ∀ r ∈ ranges, sliceDoc doc r.1 r.2 =
      sliceDoc doc (ranges.headD (0, 0)).1 (ranges.headD (0, 0)).2)
    (hforward : firstIn (strMatcher id doc
        (sliceDoc doc (ranges.headD (0, 0)).1 (ranges.headD (0, 0)).2))
      (ranges.getLastD (0, 0)).2 doc.length = none) :
    selectNextOccurrence doc ranges =
      match (nextPositions (strMatcher id doc
          (sliceDoc doc (ranges.headD (0, 0)).1 (ranges.headD (0, 0)).2))
          (doc.length + 1) 0 (max 0 ((ranges.getLastD (0, 0)).1 - 1))).find?
        (fun r => !(ranges.any (fun sel => sel.1 == r.1))) with
      | none => SelectResult.fail
      | some r => SelectResult.newSel (ranges ++ [r]) := by
  have hA : ¬(ranges.any (fun sel => sel.1 == sel.2) = true) := by
    rw [List.any_eq_true]
    rintro ⟨r, hr, hbeq⟩
    rw [beq_iff_eq] at hbeq
    have := hnonempty r hr
    omega
  have hB : ¬(ranges.any (fun r => !(sliceDoc doc r.1 r.2 ==
      sliceDoc doc (ranges.headD (0, 0)).1 (ranges.headD (0, 0)).2)) = true) := by
    rw [List.any_eq_true]
    rintro ⟨r, hr, hbeq⟩
    rw [Bool.not_eq_true', beq_eq_false_iff_ne] at hbeq
    exact hbeq (htext r hr)
  have hfno : findNextOccurrence doc ranges
      (sliceDoc doc (ranges.headD (0, 0)).1 (ranges.headD (0, 0)).2) =
      (nextPositions (strMatcher id doc (sliceDoc doc (ranges.headD (0, 0)).1
        (ranges.headD (0, 0)).2)) (doc.length + 1) 0
        (max 0 ((ranges.getLastD (0, 0)).1 - 1))).find?
      (fun r => !(ranges.any (fun sel => sel.1 == r.1))) := by
    simp only [findNextOccurrence]
    rw [hforward]
  simp only [selectNextOccurrence]
  rw [if_neg hA, if_neg hB, hfno]

/-- C6 witness: document `"ab ab"` with the single selected range `(3, 5)`
(text `"ab"`): the forward search fails, the wrap scan finds `(0, 2)`,
and the selection gains that range. -/
theorem c6_witness :
    selectNextOccurrence "ab ab".toList [(3, 5)] =
      SelectResult.newSel [(3, 5), (0, 2)] := by
  have h := c6_amended "ab ab".toList [(3, 5)] (by decide) (by decide)
    (by decide) (by decide)
  rw [h]
  decide

theorem overPositions_mem {m : Matcher} :
    ∀ {fuel lo hi : Nat} {x : Nat × Nat}, x ∈ overPositions m fuel lo hi →
      x ∈ matchList m lo hi := by
  intro fuel
  induction fuel with
  | zero =>
    intro lo hi x hx
    simp only [overPositions] at hx
    cases hx
  | succ n ih =>
    intro lo hi x hx
    cases hfi : firstIn m lo hi with
    | none =>
      simp only [overPositions, hfi] at hx
      cases hx
    | some r =>
      simp only [overPositions, hfi] at hx
      rcases List.mem_cons.mp hx with rfl | hxt
      · exact (firstIn_spec hfi).1
      · have hx2 := ih hxt
        have hr := mem_matchList'.mp (firstIn_spec hfi).1
        exact matchList_mono_lo hx2 (by omega)

/-- C7: in word-around-cursor mode, every occurrence the selection-match
highlighter decorates satisfies the whole-word predicate of
`word.ts` (`isWholeWord`): given that the query is the word under the
cursor (non-empty, all of its characters classify as word characters —
what `state.wordAt` guarantees, modelled from the spec), every range in
the produced decoration set is a whole-word occurrence, so the `"cat"`
inside `"category"` is never decorated. -/
theorem c7_wordHighlight (check : List Char → CharCategory)
    (doc query : List Char) (head visFrom visTo maxM : Nat)
    (hq : query ≠ [])
    (hW : ∀ c ∈ query, check [c] = CharCategory.Word) :
    ∀ l, getDecoWord check doc head query visFrom visTo maxM = some l →
      ∀ x ∈ l, isWholeWord check doc x.1 x.2.1 = true := by
  intro l hres x hx
  rcases decoLoop_mem_cases (some check) doc head head maxM
      (overPositions (strMatcher id doc query) (doc.length + 1) visFrom visTo)
      [] l hres x hx with hacc | ⟨hmem, hbound, _⟩
  · cases hacc
  · have hb := hbound check rfl
    obtain ⟨h1, h2, h3, h4⟩ := mem_matchList'.mp (overPositions_mem hmem)
    obtain ⟨hocc, hlen⟩ := strMatcher_some_occurs h2
    have ht : x.2.1 = x.1 + query.length := by omega
    unfold isWholeWord
    rw [Bool.and_eq_true]
    refine ⟨hb, ?_⟩
    unfold insideWord
    rw [Bool.and_eq_true]
    constructor
    · rw [decide_eq_true_eq]
      have hlen1 : (query.take 1).length = 1 := by
        rw [List.length_take]
        have := List.length_pos.mpr hq
        omega
      obtain ⟨c0, hc0eq, hc0mem⟩ := singleton_of_length_one hlen1
      rw [occursAt_id_first hocc hq, hc0eq]
      exact hW c0 (List.mem_of_mem_take hc0mem)
    · rw [decide_eq_true_eq]
      rw [ht]
      have hlen2 : (query.drop (query.length - 1)).length = 1 := by
        rw [List.length_drop]
        have := List.length_pos.mpr hq
        omega
      obtain ⟨c1, hc1eq, hc1mem⟩ := singleton_of_length_one hlen2
      rw [occursAt_id_last hocc hq, hc1eq]
      exact hW c1 (List.mem_of_mem_drop hc1mem)

/-- C7 witness: highlighting the word `"cat"` around the cursor at offset 1
in `"cat category cat"` decorates `(0, 3)` and `(13, 16)` but not the
`"cat"` inside `"category"`, and both decorated ranges are whole words. -/
theorem c7_witness :
    isWholeWord alphaCheck "cat category cat".toList 0 3 = true ∧
    isWholeWord alphaCheck "cat category cat".toList 13 16 = true :=
  ⟨c7_wordHighlight alphaCheck "cat category cat".toList "cat".toList 1 0 16 100
      (by decide) (by decide)
      [((0 : Nat), (3 : Nat), DecoKind.main),
       ((13 : Nat), (16 : Nat), DecoKind.other)]
      (by decide) (0, 3, DecoKind.main) (by decide),
   c7_wordHighlight alphaCheck "cat category cat".toList "cat".toList 1 0 16 100
      (by decide) (by decide)
      [((0 : Nat), (3 : Nat), DecoKind.main),
       ((13 : Nat), (16 : Nat), DecoKind.other)]
      (by decide) (13, 16, DecoKind.other) (by decide)⟩

/-- C8: counterexample to the claim as stated.  In plain selection mode
(document `"ab ab"`, selection `(0, 2)`, query `"ab"`), the highlighter
produces the non-empty decoration set `[(3, 5, other)]`: the occurrence
coincident with the selection — `(0, 2)`, a real occurrence — is not
included under any tag, and nothing is tagged as the main match. -/
theorem c8_counterexample :
    getDecoSel "ab ab".toList 0 2 "ab".toList 0 5 100 =
      some [(3, 5, DecoKind.other)] ∧
    occursAt id "ab ab".toList "ab".toList 0 = true ∧
    ¬((0, 2, DecoKind.main) ∈ [((3 : Nat), (5 : Nat), DecoKind.other)]) ∧
    ¬((0, 2, DecoKind.other) ∈ [((3 : Nat), (5 : Nat), DecoKind.other)]) ∧
    ([((3 : Nat), (5 : Nat), DecoKind.other)].all
      (fun x => decide (x.2.2 ≠ DecoKind.main))) = true := by
  decide

/-- C8 (amended): only word-around-cursor mode produces a "main" match: in
that mode a decorated occurrence is tagged `main` (the distinct
`cm-selectionMatch-main` mark) exactly when it contains the cursor
position.  In plain selection mode, the occurrence coincident with the
non-empty selection is excluded from the set and every decoration carries
the plain tag. -/
theorem c8_amended :
    (∀ (check : List Char → CharCategory) (doc query : List Char)
        (head visFrom visTo maxM : Nat) (l : List (Nat × Nat × DecoKind)),
      getDecoWord check doc head query visFrom visTo maxM = some l →
      ∀ x ∈ l, (x.2.2 = DecoKind.main ↔ x.1 ≤ head ∧ head ≤ x.2.1)) ∧
    (∀ (doc query : List Char) (rF rT visFrom visTo maxM : Nat)
        (l : List (Nat × Nat × DecoKind)), rF < rT →
      getDecoSel doc rF rT query visFrom visTo maxM = some l →
      (∀ k, (rF, rT, k) ∉ l) ∧ ∀ x ∈ l, x.2.2 = DecoKind.other) := by
  constructor
  · intro check doc query head visFrom visTo maxM l hres x hx
    rcases decoLoop_mem_cases (some check) doc head head maxM
        (overPositions (strMatcher id doc query) (doc.length + 1) visFrom visTo)
        [] l hres x hx with hacc | ⟨_, _, hkind⟩
    · cases hacc
    · rcases hkind with ⟨hk, hcond⟩ | ⟨hk, hcond, _⟩
      · simp only [Option.isSome_some, Bool.true_and, Bool.and_eq_true,
          decide_eq_true_eq] at hcond
        exact iff_of_true hk hcond
      · refine iff_of_false ?_ ?_
        · rw [hk]
          intro hcontra
          cases hcontra
        · rintro ⟨ha, hb⟩
          have ha' : decide (x.1 ≤ head) = true := decide_eq_true ha
          have hb' : decide (head ≤ x.2.1) = true := decide_eq_true hb
          rw [Option.isSome_some, ha', hb'] at hcond
          cases hcond
  · intro doc query rF rT visFrom visTo maxM l hr hres
    have hall : ∀ x ∈ l, x.2.2 = DecoKind.other ∧ ¬(x.1 = rF ∧ x.2.1 = rT) := by
      intro x hx
      rcases decoLoop_mem_cases none doc rF rT maxM
          (overPositions (strMatcher id doc query) (doc.length + 1) visFrom visTo)
          [] l hres x hx with hacc | ⟨_, _, hkind⟩
      · cases hacc
      · rcases hkind with ⟨hk, hcond⟩ | ⟨hk, _, hoth⟩
        · rw [Option.isSome_none, Bool.false_and, Bool.false_and] at hcond
          cases hcond
        · refine ⟨hk, ?_⟩
          rintro ⟨he1, he2⟩
          rw [he1, he2] at hoth
          simp only [Bool.or_eq_true, decide_eq_true_eq] at hoth
          rcases hoth with h | h <;> omega
    constructor
    · intro k hmem
      exact (hall _ hmem).2 ⟨rfl, rfl⟩
    · intro x hx
      exact (hall x hx).1

/-- C8 witness: the word-mode conjunct applied to the `"cat"` highlight of
the C7 witness (the range containing the cursor is exactly the one tagged
main), and the selection-mode conjunct applied to the counterexample
state (the coincident range is excluded and no main tag appears). -/
theorem c8_witness :
    (∀ x ∈ [((0 : Nat), (3 : Nat), DecoKind.main),
            ((13 : Nat), (16 : Nat), DecoKind.other)],
      (x.2.2 = DecoKind.main ↔ x.1 ≤ 1 ∧ 1 ≤ x.2.1)) ∧
    ((∀ k, ((0 : Nat), (2 : Nat), k) ∉ [((3 : Nat), (5 : Nat), DecoKind.other)]) ∧
      ∀ x ∈ [((3 : Nat), (5 : Nat), DecoKind.other)], x.2.2 = DecoKind.other) := by
  constructor
  · exact c8_amended.1 alphaCheck "cat category cat".toList "cat".toList 1 0 16 100
      [((0 : Nat), (3 : Nat), DecoKind.main),
       ((13 : Nat), (16 : Nat), DecoKind.other)] (by decide)
  · exact c8_amended.2 "ab ab".toList "ab".toList 0 2 0 5 100
      [((3 : Nat), (5 : Nat), DecoKind.other)] (by decide) (by decide)

/-- C10 witness: the step characterization applied at a concrete input
(query `"ab"`, document `"ab"`, range start 0, position 0). -/
theorem c10_witness :
    (∃ r, lastIn (strMatcher (qnorm ⟨"ab".toList, [], false⟩) "ab".toList "ab".toList)
        (max 0 (0 - (chunkSize + ("ab".toList).length))) 0 = some r ∧
      StringQuery.prevMatchInRange ⟨"ab".toList, [], false⟩ "ab".toList 0 0 = some r) ∨
    (lastIn (strMatcher (qnorm ⟨"ab".toList, [], false⟩) "ab".toList "ab".toList)
        (max 0 (0 - (chunkSize + ("ab".toList).length))) 0 = none ∧
      max 0 (0 - (chunkSize + ("ab".toList).length)) = 0 ∧
      StringQuery.prevMatchInRange ⟨"ab".toList, [], false⟩ "ab".toList 0 0 = none) ∨
    (lastIn (strMatcher (qnorm ⟨"ab".toList, [], false⟩) "ab".toList "ab".toList)
        (max 0 (0 - (chunkSize + ("ab".toList).length))) 0 = none ∧
      max 0 (0 - (chunkSize + ("ab".toList).length)) ≠ 0 ∧
      StringQuery.prevMatchInRange ⟨"ab".toList, [], false⟩ "ab".toList 0 0 =
        StringQuery.prevMatchInRange ⟨"ab".toList, [], false⟩ "ab".toList 0
          (0 - chunkSize) ∧
      chunkSize = 10000 ∧ 0 - chunkSize < 0) :=
  c10_termination ⟨"ab".toList, [], false⟩ "ab".toList 0 0
